import Mathlib

/-!
# Verification of the visarepo commit-replay dashboard

Shallow embedding of the core of `src/app.go` (together with the
non-interactive driver in `src/unnamed/part_001`): the commit data model,
the ingestion statistics, the integration step of the replay engine
(cumulative prefix sums and running series extremes), the diff cache, the
key-event state machine, the developer-stats aggregation, and the braille
(dot-matrix) canvas packing.

Conventions of the embedding:
* Go `int` fields that only ever hold non-negative counts (diff line
  counts, file counts, cumulative sums, running maxima) are embedded as
  `Nat`; fields where the Go code does signed arithmetic (`diffScroll`,
  `height`, year-index wrap-around) are embedded as `Int`.
* The repository (go-git) is an external collaborator; its deterministic
  computations are abstracted as function parameters (`diffOf`,
  `diffStats`).
* A Go runtime panic (slice index out of range) is embedded as `none` in
  an `Option`-valued step function.
* Fields of `Model` that are pure I/O plumbing (config, repo handle,
  program reference, channel) or rendering layout (width, graphColumns,
  networkGraphHeight) are omitted; `height` is kept because the diff-view
  scrolling uses it.
* `time.Time` dates are omitted: none of the verified claims depends on
  them (the year list for year-cycling is taken as the `availableStatYears`
  field the code indexes).
-/

/-- Embeds the Go struct `commitInfo` from `src/app.go`. -/
structure CommitInfo where
  hash : String
  message : String
  author : String
  diffLoaded : Bool := false
  diffContent : String := ""
  files : Nat := 0
  additions : Nat := 0
  deletions : Nat := 0
  churn : Nat := 0
  cumulativeFiles : Nat := 0
  cumulativeAdditions : Nat := 0
  cumulativeDeletions : Nat := 0
  deriving Repr, DecidableEq

/-- One per-file entry of `patch.Stats()` (go-git `FileStat`): line counts. -/
structure FileStat where
  addition : Nat
  deletion : Nat
  deriving Repr, DecidableEq

/-- Embeds the per-commit statistics computation of `Model.fetcher`
(`src/app.go`): a commit with no parent contributes zero to every
statistic; otherwise the stats come from `patch.Stats()` of the diff of
the first parent's tree against the commit's tree, abstracted here as
`diffStats p` for the first parent `p`. -/
def fetchCommitStats (parents : List String) (diffStats : String → List FileStat) :
    Nat × Nat × Nat × Nat :=
  match parents with
  | [] => (0, 0, 0, 0)
  | p :: _ =>
    let stats := diffStats p
    let filesChanged := stats.length
    let additions := (stats.map FileStat.addition).sum
    let deletions := (stats.map FileStat.deletion).sum
    (filesChanged, additions, deletions, additions + deletions)

/-- The record `Model.fetcher` sends on `processedCommitsChan` for one
commit (`src/app.go`): identity fields plus the diff statistics. -/
def fetchRecord (hash message author : String) (parents : List String)
    (diffStats : String → List FileStat) : CommitInfo :=
  let s := fetchCommitStats parents diffStats
  { hash := hash, message := message, author := author,
    files := s.1, additions := s.2.1, deletions := s.2.2.1, churn := s.2.2.2 }

/-- Embeds the cumulative-field computation shared verbatim by the
`progressTickMsg` branch of `Model.Update` (`src/app.go`) and by
`runNonInteractive` (`src/unnamed/part_001`): the new record's cumulative
fields are the previous last record's cumulative fields plus the new
record's own deltas, or the deltas alone when the list is empty, and the
record is appended. -/
def integrateCommit (commits : List CommitInfo) (c : CommitInfo) : List CommitInfo :=
  let c' :=
    match commits.getLast? with
    | some lastCommit =>
      { c with cumulativeFiles := lastCommit.cumulativeFiles + c.files,
               cumulativeAdditions := lastCommit.cumulativeAdditions + c.additions,
               cumulativeDeletions := lastCommit.cumulativeDeletions + c.deletions }
    | none =>
      { c with cumulativeFiles := c.files,
               cumulativeAdditions := c.additions,
               cumulativeDeletions := c.deletions }
  commits ++ [c']

/-- Integrating a whole ingested sequence in order, starting from the
empty visible list — exactly the loop of `runNonInteractive`
(`src/unnamed/part_001`) and the effect of successive ticks in
`Model.Update`. -/
def integrateAll (cs : List CommitInfo) : List CommitInfo :=
  cs.foldl integrateCommit []

/-- Proof-side reformulation of `integrateAll` as a forward scan carrying
the three cumulative sums. -/
def integrateGo (F A D : Nat) : List CommitInfo → List CommitInfo
  | [] => []
  | c :: rest =>
    { c with cumulativeFiles := F + c.files,
             cumulativeAdditions := A + c.additions,
             cumulativeDeletions := D + c.deletions }
      :: integrateGo (F + c.files) (A + c.additions) (D + c.deletions) rest

theorem integrateGo_length (F A D : Nat) (cs : List CommitInfo) :
    (integrateGo F A D cs).length = cs.length := by
  induction cs generalizing F A D with
  | nil => rfl
  | cons c rest ih => simp [integrateGo, ih]

theorem foldl_integrateCommit_eq (cs : List CommitInfo) :
    ∀ (acc : List CommitInfo) (F A D : Nat),
      (match acc.getLast? with
        | some l => l.cumulativeFiles = F ∧ l.cumulativeAdditions = A ∧
                    l.cumulativeDeletions = D
        | none => F = 0 ∧ A = 0 ∧ D = 0) →
      cs.foldl integrateCommit acc = acc ++ integrateGo F A D cs := by
  induction cs with
  | nil => intro acc F A D _; simp [integrateGo]
  | cons c rest ih =>
    intro acc F A D hacc
    have hstep : integrateCommit acc c =
        acc ++ [{ c with cumulativeFiles := F + c.files,
                         cumulativeAdditions := A + c.additions,
                         cumulativeDeletions := D + c.deletions }] := by
      cases hlast : acc.getLast? with
      | some l =>
        rw [hlast] at hacc
        obtain ⟨h1, h2, h3⟩ := hacc
        simp [integrateCommit, hlast, h1, h2, h3]
      | none =>
        rw [hlast] at hacc
        obtain ⟨h1, h2, h3⟩ := hacc
        subst h1; subst h2; subst h3
        simp [integrateCommit, hlast]
    have hlast' :
        (acc ++ [{ c with cumulativeFiles := F + c.files,
                          cumulativeAdditions := A + c.additions,
                          cumulativeDeletions := D + c.deletions }]).getLast? =
        some { c with cumulativeFiles := F + c.files,
                      cumulativeAdditions := A + c.additions,
                      cumulativeDeletions := D + c.deletions } := by
      simp [List.getLast?_append]
    calc (c :: rest).foldl integrateCommit acc
        = rest.foldl integrateCommit (integrateCommit acc c) := rfl
      _ = (acc ++ [{ c with cumulativeFiles := F + c.files,
                            cumulativeAdditions := A + c.additions,
                            cumulativeDeletions := D + c.deletions }]) ++
            integrateGo (F + c.files) (A + c.additions) (D + c.deletions) rest := by
          rw [hstep]
          exact ih _ _ _ _ (by rw [hlast']; exact ⟨rfl, rfl, rfl⟩)
      _ = acc ++ integrateGo F A D (c :: rest) := by
          simp [integrateGo]

theorem integrateAll_eq_go (cs : List CommitInfo) :
    integrateAll cs = integrateGo 0 0 0 cs := by
  have := foldl_integrateCommit_eq cs [] 0 0 0 (by simp)
  simpa [integrateAll] using this

theorem integrateAll_length (cs : List CommitInfo) :
    (integrateAll cs).length = cs.length := by
  rw [integrateAll_eq_go, integrateGo_length]

theorem integrateGo_get (cs : List CommitInfo) :
    ∀ (F A D i : Nat) (h : i < (integrateGo F A D cs).length),
      ((integrateGo F A D cs).get ⟨i, h⟩).cumulativeFiles =
        F + ((cs.take (i + 1)).map CommitInfo.files).sum ∧
      ((integrateGo F A D cs).get ⟨i, h⟩).cumulativeAdditions =
        A + ((cs.take (i + 1)).map CommitInfo.additions).sum ∧
      ((integrateGo F A D cs).get ⟨i, h⟩).cumulativeDeletions =
        D + ((cs.take (i + 1)).map CommitInfo.deletions).sum := by
  induction cs with
  | nil => intro F A D i h; simp [integrateGo] at h
  | cons c rest ih =>
    intro F A D i h
    cases i with
    | zero => simp [integrateGo]
    | succ i =>
      have h' : i < (integrateGo (F + c.files) (A + c.additions)
          (D + c.deletions) rest).length := by
        simpa [integrateGo] using h
      obtain ⟨e1, e2, e3⟩ := ih (F + c.files) (A + c.additions) (D + c.deletions) i h'
      have hget : (integrateGo F A D (c :: rest)).get ⟨i + 1, h⟩ =
          (integrateGo (F + c.files) (A + c.additions) (D + c.deletions) rest).get
            ⟨i, h'⟩ := rfl
      refine ⟨?_, ?_, ?_⟩
      · rw [hget, e1]; simp [List.take_succ_cons]; omega
      · rw [hget, e2]; simp [List.take_succ_cons]; omega
      · rw [hget, e3]; simp [List.take_succ_cons]; omega

theorem sum_take_mono (l : List Nat) (i j : Nat) (hij : i ≤ j) :
    (l.take i).sum ≤ (l.take j).sum := by
  have h1 : (l.take j).take i = l.take i := by
    rw [List.take_take, Nat.min_eq_left hij]
  have h2 : ((l.take j).take i).sum + ((l.take j).drop i).sum = (l.take j).sum :=
    List.sum_take_add_sum_drop _ _
  rw [h1] at h2
  omega

/-- **C1.** For every sequence of integrated commit records, the cumulative
files/additions/deletions stored on the record at index `i` equal the exact
prefix sum of the per-commit deltas through index `i` (at `i = 0` this is the
record's own deltas), and the cumulative sequence is monotonically
non-decreasing. -/
theorem cumulative_is_prefix_sum_and_monotone (cs : List CommitInfo) (i j : Nat)
    (hij : i ≤ j) (hj : j < (integrateAll cs).length) :
    (((integrateAll cs).get ⟨i, Nat.lt_of_le_of_lt hij hj⟩).cumulativeFiles =
        ((cs.take (i + 1)).map CommitInfo.files).sum ∧
      ((integrateAll cs).get ⟨i, Nat.lt_of_le_of_lt hij hj⟩).cumulativeAdditions =
        ((cs.take (i + 1)).map CommitInfo.additions).sum ∧
      ((integrateAll cs).get ⟨i, Nat.lt_of_le_of_lt hij hj⟩).cumulativeDeletions =
        ((cs.take (i + 1)).map CommitInfo.deletions).sum) ∧
    (((integrateAll cs).get ⟨i, Nat.lt_of_le_of_lt hij hj⟩).cumulativeFiles ≤
        ((integrateAll cs).get ⟨j, hj⟩).cumulativeFiles ∧
      ((integrateAll cs).get ⟨i, Nat.lt_of_le_of_lt hij hj⟩).cumulativeAdditions ≤
        ((integrateAll cs).get ⟨j, hj⟩).cumulativeAdditions ∧
      ((integrateAll cs).get ⟨i, Nat.lt_of_le_of_lt hij hj⟩).cumulativeDeletions ≤
        ((integrateAll cs).get ⟨j, hj⟩).cumulativeDeletions) := by
  have hj' : j < (integrateGo 0 0 0 cs).length := by
    rw [integrateGo_length]
    rw [integrateAll_length] at hj
    exact hj
  have hi' : i < (integrateGo 0 0 0 cs).length := Nat.lt_of_le_of_lt hij hj'
  obtain ⟨f1, a1, d1⟩ := integrateGo_get cs 0 0 0 i hi'
  obtain ⟨f2, a2, d2⟩ := integrateGo_get cs 0 0 0 j hj'
  have hmono : ∀ g : CommitInfo → Nat,
      ((cs.take (i + 1)).map g).sum ≤ ((cs.take (j + 1)).map g).sum := by
    intro g
    rw [List.map_take, List.map_take]
    exact sum_take_mono (cs.map g) (i + 1) (j + 1) (by omega)
  have hEq := integrateAll_eq_go cs
  have g1 : (integrateAll cs).get ⟨i, Nat.lt_of_le_of_lt hij hj⟩ =
      (integrateGo 0 0 0 cs).get ⟨i, hi'⟩ :=
    List.get_of_eq hEq ⟨i, Nat.lt_of_le_of_lt hij hj⟩
  have g2 : (integrateAll cs).get ⟨j, hj⟩ = (integrateGo 0 0 0 cs).get ⟨j, hj'⟩ :=
    List.get_of_eq hEq ⟨j, hj⟩
  rw [g1, g2]
  refine ⟨⟨?_, ?_, ?_⟩, ?_, ?_, ?_⟩
  · exact f1.trans (Nat.zero_add _)
  · exact a1.trans (Nat.zero_add _)
  · exact d1.trans (Nat.zero_add _)
  · exact le_of_eq_of_le f1 (le_of_le_of_eq (by simpa using hmono CommitInfo.files) f2.symm)
  · exact le_of_eq_of_le a1
      (le_of_le_of_eq (by simpa using hmono CommitInfo.additions) a2.symm)
  · exact le_of_eq_of_le d1
      (le_of_le_of_eq (by simpa using hmono CommitInfo.deletions) d2.symm)

/-- Sample ingested sequence: the scenario of spec §8 — a root commit with
zero stats, then +10/−2, then +0/−5. -/
def sampleIngest : List CommitInfo :=
  [{ hash := "c1", message := "init", author := "a" },
   { hash := "c2", message := "m2", author := "a",
     files := 1, additions := 10, deletions := 2, churn := 12 },
   { hash := "c3", message := "m3", author := "b",
     files := 1, additions := 0, deletions := 5, churn := 5 }]

theorem cumulative_is_prefix_sum_and_monotone_witness :
    (((integrateAll sampleIngest).get ⟨1, by decide⟩).cumulativeFiles =
        ((sampleIngest.take 2).map CommitInfo.files).sum ∧
      ((integrateAll sampleIngest).get ⟨1, by decide⟩).cumulativeAdditions =
        ((sampleIngest.take 2).map CommitInfo.additions).sum ∧
      ((integrateAll sampleIngest).get ⟨1, by decide⟩).cumulativeDeletions =
        ((sampleIngest.take 2).map CommitInfo.deletions).sum) ∧
    (((integrateAll sampleIngest).get ⟨1, by decide⟩).cumulativeFiles ≤
        ((integrateAll sampleIngest).get ⟨2, by decide⟩).cumulativeFiles ∧
      ((integrateAll sampleIngest).get ⟨1, by decide⟩).cumulativeAdditions ≤
        ((integrateAll sampleIngest).get ⟨2, by decide⟩).cumulativeAdditions ∧
      ((integrateAll sampleIngest).get ⟨1, by decide⟩).cumulativeDeletions ≤
        ((integrateAll sampleIngest).get ⟨2, by decide⟩).cumulativeDeletions) :=
  cumulative_is_prefix_sum_and_monotone sampleIngest 1 2 (by decide) (by decide)

/-- Embeds the Go type `diffViewState` (`src/app.go`). -/
inductive DiffViewState where
  | notInDiffView
  | inDiffView
  deriving Repr, DecidableEq

/-- Embeds the Go struct `Model` (`src/app.go`), restricted to the fields
the replay state machine reads or writes.  Omitted: `config`, `repo`,
`program`, `processedCommitsChan` (I/O plumbing), `width`,
`networkGraphHeight`, `graphColumns` (rendering layout),
`progressInterval` (real time). -/
structure Model where
  commits : List CommitInfo
  currentCommitIndex : Nat
  height : Int
  maxAdditions : Nat
  maxDeletions : Nat
  autoProgress : Bool
  loadingComplete : Bool
  diffState : DiffViewState
  currentDiff : String
  diffScroll : Int
  displayedStatsYear : Int
  availableStatYears : List Int
  currentStatYearIndex : Int
  deriving Repr, DecidableEq

/-- Embeds `InitialModel` (`src/app.go`): zero values everywhere except the
auto-progress flag taken from the configuration. -/
def InitialModel (autoProgress : Bool) : Model :=
  { commits := [], currentCommitIndex := 0, height := 0,
    maxAdditions := 0, maxDeletions := 0, autoProgress := autoProgress,
    loadingComplete := false, diffState := DiffViewState.notInDiffView,
    currentDiff := "", diffScroll := 0, displayedStatsYear := 0,
    availableStatYears := [], currentStatYearIndex := 0 }

/-- The running-maximum update of `Model.Update` (`src/app.go`, the
`progressTickMsg` branch): `if v > mx { mx = v }`. -/
def stepMax (mx v : Nat) : Nat :=
  if v > mx then v else mx

/-- Embeds the `progressTickMsg` branch of `Model.Update` (`src/app.go`)
for a tick that successfully dequeues one new record: only when
auto-progress is on, the record is marked diff-loaded, its cumulative fields
are computed from the previous last record, the running maxima are updated
once each, the record is appended, and the cursor is set to the new last
index. -/
def integrateRecord (m : Model) (c : CommitInfo) : Model :=
  if m.autoProgress then
    let c := { c with diffLoaded := true }
    let commits' := integrateCommit m.commits c
    { m with commits := commits',
             maxAdditions := stepMax m.maxAdditions c.additions,
             maxDeletions := stepMax m.maxDeletions c.deletions,
             currentCommitIndex := commits'.length - 1 }
  else m

theorem stepMax_eq_max (a b : Nat) : stepMax a b = max a b := by
  rw [stepMax, max_def_lt]

theorem integrateRecord_autoProgress (m : Model) (c : CommitInfo) :
    (integrateRecord m c).autoProgress = m.autoProgress := by
  simp only [integrateRecord]
  split <;> rfl

theorem integrateRecord_max (m : Model) (c : CommitInfo)
    (h : m.autoProgress = true) :
    (integrateRecord m c).maxAdditions = stepMax m.maxAdditions c.additions ∧
    (integrateRecord m c).maxDeletions = stepMax m.maxDeletions c.deletions := by
  simp [integrateRecord, h]

theorem foldl_integrateRecord_max (cs : List CommitInfo) :
    ∀ (m : Model), m.autoProgress = true →
      (cs.foldl integrateRecord m).maxAdditions =
        cs.foldl (fun mx c => stepMax mx c.additions) m.maxAdditions ∧
      (cs.foldl integrateRecord m).maxDeletions =
        cs.foldl (fun mx c => stepMax mx c.deletions) m.maxDeletions := by
  induction cs with
  | nil => intro m _; exact ⟨rfl, rfl⟩
  | cons c rest ih =>
    intro m hm
    have hm' : (integrateRecord m c).autoProgress = true := by
      rw [integrateRecord_autoProgress]; exact hm
    obtain ⟨e1, e2⟩ := ih (integrateRecord m c) hm'
    obtain ⟨u1, u2⟩ := integrateRecord_max m c hm
    refine ⟨?_, ?_⟩
    · calc ((c :: rest).foldl integrateRecord m).maxAdditions
          = (rest.foldl integrateRecord (integrateRecord m c)).maxAdditions := rfl
        _ = rest.foldl (fun mx c => stepMax mx c.additions)
              (integrateRecord m c).maxAdditions := e1
        _ = rest.foldl (fun mx c => stepMax mx c.additions)
              (stepMax m.maxAdditions c.additions) := by rw [u1]
    · calc ((c :: rest).foldl integrateRecord m).maxDeletions
          = (rest.foldl integrateRecord (integrateRecord m c)).maxDeletions := rfl
        _ = rest.foldl (fun mx c => stepMax mx c.deletions)
              (integrateRecord m c).maxDeletions := e2
        _ = rest.foldl (fun mx c => stepMax mx c.deletions)
              (stepMax m.maxDeletions c.deletions) := by rw [u2]

theorem foldl_stepMax_le (g : CommitInfo → Nat) (cs : List CommitInfo) :
    ∀ x : Nat, x ≤ cs.foldl (fun mx c => stepMax mx (g c)) x := by
  induction cs with
  | nil => intro x; exact Nat.le_refl x
  | cons c rest ih =>
    intro x
    refine Nat.le_trans ?_ (ih (stepMax x (g c)))
    rw [stepMax_eq_max]
    exact Nat.le_max_left _ _

theorem foldl_stepMax_mem_le (g : CommitInfo → Nat) (cs : List CommitInfo) :
    ∀ (x : Nat) (c : CommitInfo), c ∈ cs →
      g c ≤ cs.foldl (fun mx c => stepMax mx (g c)) x := by
  induction cs with
  | nil => intro x c hc; cases hc
  | cons c0 rest ih =>
    intro x c hc
    rcases List.mem_cons.mp hc with h | h
    · subst h
      refine Nat.le_trans ?_ (foldl_stepMax_le g rest (stepMax x (g c)))
      rw [stepMax_eq_max]
      exact Nat.le_max_right _ _
    · exact ih (stepMax x (g c0)) c h

theorem foldl_stepMax_attained (g : CommitInfo → Nat) (cs : List CommitInfo) :
    ∀ x : Nat, cs.foldl (fun mx c => stepMax mx (g c)) x = x ∨
      ∃ c ∈ cs, cs.foldl (fun mx c => stepMax mx (g c)) x = g c := by
  induction cs with
  | nil => intro x; exact Or.inl rfl
  | cons c0 rest ih =>
    intro x
    rcases ih (stepMax x (g c0)) with h | ⟨c, hc, he⟩
    · by_cases hgt : g c0 > x
      · refine Or.inr ⟨c0, List.mem_cons_self _ _, ?_⟩
        rw [List.foldl_cons, h]
        simp [stepMax, hgt]
      · refine Or.inl ?_
        rw [List.foldl_cons, h]
        simp [stepMax, hgt]
    · exact Or.inr ⟨c, List.mem_cons_of_mem _ hc, by rw [List.foldl_cons, he]⟩

theorem foldl_integrateRecord_max_indep (cs : List CommitInfo)
    (m₁ m₂ : Model) (h1 : m₁.autoProgress = true) (h2 : m₂.autoProgress = true)
    (hmA : m₁.maxAdditions = m₂.maxAdditions)
    (hmD : m₁.maxDeletions = m₂.maxDeletions) :
    (cs.foldl integrateRecord m₁).maxAdditions =
      (cs.foldl integrateRecord m₂).maxAdditions ∧
    (cs.foldl integrateRecord m₁).maxDeletions =
      (cs.foldl integrateRecord m₂).maxDeletions := by
  obtain ⟨e1, d1⟩ := foldl_integrateRecord_max cs m₁ h1
  obtain ⟨e2, d2⟩ := foldl_integrateRecord_max cs m₂ h2
  rw [e1, e2, d1, d2, hmA, hmD]
  exact ⟨rfl, rfl⟩

theorem integrateRecord_max_mono (M : Model) (c : CommitInfo) :
    M.maxAdditions ≤ (integrateRecord M c).maxAdditions ∧
    M.maxDeletions ≤ (integrateRecord M c).maxDeletions := by
  by_cases h : M.autoProgress
  · obtain ⟨u1, u2⟩ := integrateRecord_max M c h
    rw [u1, u2, stepMax_eq_max, stepMax_eq_max]
    exact ⟨le_max_left _ _, le_max_left _ _⟩
  · simp [integrateRecord, h]

/-- **C2.** The running maxima `maxAdditions` and `maxDeletions` are
non-decreasing at every integration step, are updated exactly once per
newly integrated record, and after all records are integrated equal the
true maximum per-commit additions (resp. deletions) over the whole
integrated sequence, independent of cursor position. -/
theorem series_extremes_correct (m : Model) (cs : List CommitInfo)
    (ha : m.autoProgress = true) (hA : m.maxAdditions = 0)
    (hD : m.maxDeletions = 0) :
    (∀ c ∈ cs, c.additions ≤ (cs.foldl integrateRecord m).maxAdditions ∧
               c.deletions ≤ (cs.foldl integrateRecord m).maxDeletions) ∧
    ((cs.foldl integrateRecord m).maxAdditions = 0 ∨
      ∃ c ∈ cs, (cs.foldl integrateRecord m).maxAdditions = c.additions) ∧
    ((cs.foldl integrateRecord m).maxDeletions = 0 ∨
      ∃ c ∈ cs, (cs.foldl integrateRecord m).maxDeletions = c.deletions) ∧
    (∀ n, ((cs.take n).foldl integrateRecord m).maxAdditions ≤
            ((cs.take (n + 1)).foldl integrateRecord m).maxAdditions ∧
          ((cs.take n).foldl integrateRecord m).maxDeletions ≤
            ((cs.take (n + 1)).foldl integrateRecord m).maxDeletions) ∧
    (∀ (m' : Model) (c : CommitInfo), m'.autoProgress = true →
      (integrateRecord m' c).maxAdditions = stepMax m'.maxAdditions c.additions ∧
      (integrateRecord m' c).maxDeletions = stepMax m'.maxDeletions c.deletions) ∧
    (∀ k, (cs.foldl integrateRecord
            { m with currentCommitIndex := k }).maxAdditions =
            (cs.foldl integrateRecord m).maxAdditions ∧
          (cs.foldl integrateRecord
            { m with currentCommitIndex := k }).maxDeletions =
            (cs.foldl integrateRecord m).maxDeletions) := by
  obtain ⟨eA, eD⟩ := foldl_integrateRecord_max cs m ha
  rw [hA] at eA
  rw [hD] at eD
  refine ⟨?_, ?_, ?_, ?_, ?_, ?_⟩
  · intro c hc
    rw [eA, eD]
    exact ⟨foldl_stepMax_mem_le CommitInfo.additions cs 0 c hc,
           foldl_stepMax_mem_le CommitInfo.deletions cs 0 c hc⟩
  · rw [eA]
    rcases foldl_stepMax_attained CommitInfo.additions cs 0 with h | ⟨c, hc, he⟩
    · exact Or.inl h
    · exact Or.inr ⟨c, hc, he⟩
  · rw [eD]
    rcases foldl_stepMax_attained CommitInfo.deletions cs 0 with h | ⟨c, hc, he⟩
    · exact Or.inl h
    · exact Or.inr ⟨c, hc, he⟩
  · intro n
    rw [List.take_succ, List.foldl_append]
    cases hq : cs[n]? with
    | none => simp
    | some c =>
      simp only [Option.toList, List.foldl_cons, List.foldl_nil]
      exact integrateRecord_max_mono _ c
  · intro m' c hm'
    exact integrateRecord_max m' c hm'
  · intro k
    exact foldl_integrateRecord_max_indep cs _ m ha ha rfl rfl

theorem series_extremes_witness :
    (∀ c ∈ sampleIngest,
      c.additions ≤
        (sampleIngest.foldl integrateRecord (InitialModel true)).maxAdditions ∧
      c.deletions ≤
        (sampleIngest.foldl integrateRecord (InitialModel true)).maxDeletions) ∧
    ((sampleIngest.foldl integrateRecord (InitialModel true)).maxAdditions = 0 ∨
      ∃ c ∈ sampleIngest,
        (sampleIngest.foldl integrateRecord (InitialModel true)).maxAdditions =
          c.additions) ∧
    ((sampleIngest.foldl integrateRecord (InitialModel true)).maxDeletions = 0 ∨
      ∃ c ∈ sampleIngest,
        (sampleIngest.foldl integrateRecord (InitialModel true)).maxDeletions =
          c.deletions) ∧
    (∀ n, ((sampleIngest.take n).foldl integrateRecord
            (InitialModel true)).maxAdditions ≤
            ((sampleIngest.take (n + 1)).foldl integrateRecord
              (InitialModel true)).maxAdditions ∧
          ((sampleIngest.take n).foldl integrateRecord
            (InitialModel true)).maxDeletions ≤
            ((sampleIngest.take (n + 1)).foldl integrateRecord
              (InitialModel true)).maxDeletions) ∧
    (∀ (m' : Model) (c : CommitInfo), m'.autoProgress = true →
      (integrateRecord m' c).maxAdditions = stepMax m'.maxAdditions c.additions ∧
      (integrateRecord m' c).maxDeletions = stepMax m'.maxDeletions c.deletions) ∧
    (∀ k, (sampleIngest.foldl integrateRecord
            { InitialModel true with currentCommitIndex := k }).maxAdditions =
            (sampleIngest.foldl integrateRecord (InitialModel true)).maxAdditions ∧
          (sampleIngest.foldl integrateRecord
            { InitialModel true with currentCommitIndex := k }).maxDeletions =
            (sampleIngest.foldl integrateRecord (InitialModel true)).maxDeletions) :=
  series_extremes_correct (InitialModel true) sampleIngest rfl rfl rfl

/-- **C3.** The ingestor gives a commit with no parent a record whose
files, additions, deletions and churn are all zero; for a commit with at
least one parent the statistics are computed from the per-file stats of
the diff against the first parent only — the remaining parents are
irrelevant. -/
theorem root_zero_and_first_parent_only (f : String → List FileStat)
    (hash message author p : String) (rest rest' : List String) :
    (fetchRecord hash message author [] f).files = 0 ∧
    (fetchRecord hash message author [] f).additions = 0 ∧
    (fetchRecord hash message author [] f).deletions = 0 ∧
    (fetchRecord hash message author [] f).churn = 0 ∧
    fetchRecord hash message author (p :: rest) f =
      fetchRecord hash message author (p :: rest') f ∧
    (fetchRecord hash message author (p :: rest) f).files = (f p).length ∧
    (fetchRecord hash message author (p :: rest) f).additions =
      ((f p).map FileStat.addition).sum ∧
    (fetchRecord hash message author (p :: rest) f).deletions =
      ((f p).map FileStat.deletion).sum ∧
    (fetchRecord hash message author (p :: rest) f).churn =
      ((f p).map FileStat.addition).sum + ((f p).map FileStat.deletion).sum :=
  ⟨rfl, rfl, rfl, rfl, rfl, rfl, rfl, rfl, rfl⟩

/-- Embeds `getDiff` (`src/app.go`).  The repository computation — the
unified diff text against the first parent, or against an empty tree for a
root commit, in both cases ending in `patch.String()` — is abstracted as
the deterministic function `diffOf` of the commit hash.  The returned
`Bool` records whether that repository computation ran (`true`) or the
cached `DiffContent` was returned (`false`).  The error paths (commit or
tree lookup failure) are omitted. -/
def getDiff (diffOf : String → String) (commit : CommitInfo) :
    String × CommitInfo × Bool :=
  if commit.diffContent ≠ "" then
    (commit.diffContent, commit, false)
  else
    let text := diffOf commit.hash
    (text, { commit with diffContent := text }, true)

/-- **C4, counterexample.** For a commit whose computed diff text is empty
(e.g. a commit recorded with `--allow-empty`), the cache check
`DiffContent != ""` never sees a cached value: both the first and the
second fetch perform the repository computation, contradicting the claim
that the second call returns the cached text without recomputation. -/
theorem getDiff_recomputes_empty_diff :
    (getDiff (fun _ => "") { hash := "r", message := "", author := "" }).2.2 =
      true ∧
    (getDiff (fun _ => "")
      ((getDiff (fun _ => "")
        { hash := "r", message := "", author := "" }).2.1)).2.2 = true := by
  constructor
  · rfl
  · rfl

/-- **C4, amended.** A second fetch for the same record always returns text
identical to the first call's result; and provided the first computed diff
text is non-empty, the second call returns the cached text without
performing the repository computation (and leaves the record unchanged).
An empty diff text is never cached, so such records are recomputed on
every fetch. -/
theorem getDiff_cached_and_computed_once (d : String → String) (c : CommitInfo) :
    (getDiff d ((getDiff d c).2.1)).1 = (getDiff d c).1 ∧
    ((getDiff d c).1 ≠ "" →
      (getDiff d ((getDiff d c).2.1)).2.2 = false ∧
      (getDiff d ((getDiff d c).2.1)).2.1 = (getDiff d c).2.1) := by
  by_cases h : c.diffContent = ""
  · by_cases h2 : d c.hash = ""
    · constructor
      · simp [getDiff, h, h2]
      · intro hne
        exfalso
        apply hne
        simp [getDiff, h, h2]
    · constructor
      · simp [getDiff, h, h2]
      · intro _
        simp [getDiff, h, h2]
  · constructor
    · simp [getDiff, h]
    · intro _
      simp [getDiff, h]

theorem getDiff_cached_and_computed_once_witness :
    (getDiff (fun _ => "DIFF")
      ((getDiff (fun _ => "DIFF")
        { hash := "h", message := "", author := "" }).2.1)).2.2 = false :=
  ((getDiff_cached_and_computed_once (fun _ => "DIFF")
    { hash := "h", message := "", author := "" }).2 (by decide)).1

/-- Go slice indexing `l[i]` with an `int` index: `none` models the runtime
panic on an index that is negative or not below the length. -/
def indexInt (l : List Int) (i : Int) : Option Int :=
  if 0 ≤ i then l.get? i.toNat else none

/-- The DiffView (inner) key switch of the `tea.KeyMsg` branch of
`Model.Update` (`src/app.go`). -/
def stepKeyDiffView (diffOf : String → String) (m : Model) (key : String) :
    Option Model :=
  if key = "q" ∨ key = "ctrl+c" ∨ key = "esc" ∨ key = "enter" then
    some { m with diffState := DiffViewState.notInDiffView }
  else if key = "up" ∨ key = "k" then
    some { m with diffScroll :=
      if m.diffScroll - 1 < 0 then 0 else m.diffScroll - 1 }
  else if key = "down" ∨ key = "j" then
    some { m with diffScroll := m.diffScroll + 1 }
  else if key = "pgup" then
    some { m with diffScroll :=
      if m.diffScroll - m.height < 0 then 0 else m.diffScroll - m.height }
  else if key = "pgdown" ∨ key = " " then
    some { m with diffScroll := m.diffScroll + m.height }
  else if key = "left" ∨ key = "h" then
    if m.currentCommitIndex > 0 then
      match m.commits.get? (m.currentCommitIndex - 1) with
      | none => none
      | some c =>
        some { m with autoProgress := false,
                      currentCommitIndex := m.currentCommitIndex - 1,
                      commits := m.commits.set (m.currentCommitIndex - 1)
                        (getDiff diffOf c).2.1,
                      currentDiff := (getDiff diffOf c).1,
                      diffScroll := 0 }
    else some { m with autoProgress := false }
  else if key = "right" ∨ key = "l" then
    if m.currentCommitIndex < m.commits.length - 1 then
      match m.commits.get? (m.currentCommitIndex + 1) with
      | none => none
      | some c =>
        some { m with autoProgress := false,
                      currentCommitIndex := m.currentCommitIndex + 1,
                      commits := m.commits.set (m.currentCommitIndex + 1)
                        (getDiff diffOf c).2.1,
                      currentDiff := (getDiff diffOf c).1,
                      diffScroll := 0 }
    else some { m with autoProgress := false }
  else some m

/-- The normal-mode (outer) key switch of `Model.Update`. -/
def stepKeyNormal (diffOf : String → String) (m : Model) (key : String) :
    Option Model :=
  if key = "q" ∨ key = "ctrl+c" then
    some m
  else if key = "right" ∨ key = "l" then
    if m.currentCommitIndex < m.commits.length - 1 then
      some { m with autoProgress := false,
                    currentCommitIndex := m.currentCommitIndex + 1 }
    else some { m with autoProgress := false }
  else if key = "left" ∨ key = "h" then
    if m.currentCommitIndex > 0 then
      some { m with autoProgress := false,
                    currentCommitIndex := m.currentCommitIndex - 1 }
    else some { m with autoProgress := false }
  else if key = "up" ∨ key = "k" then
    if m.availableStatYears.length > 0 then
      match indexInt m.availableStatYears
          (if m.currentStatYearIndex - 1 < 0 then
            (m.availableStatYears.length : Int) - 1
          else m.currentStatYearIndex - 1) with
      | none => none
      | some y =>
        some { m with currentStatYearIndex :=
                        if m.currentStatYearIndex - 1 < 0 then
                          (m.availableStatYears.length : Int) - 1
                        else m.currentStatYearIndex - 1,
                      displayedStatsYear := y }
    else some m
  else if key = "down" ∨ key = "j" then
    if m.availableStatYears.length > 0 then
      match indexInt m.availableStatYears
          ((m.currentStatYearIndex + 1).tmod
            (m.availableStatYears.length : Int)) with
      | none => none
      | some y =>
        some { m with currentStatYearIndex :=
                        (m.currentStatYearIndex + 1).tmod
                          (m.availableStatYears.length : Int),
                      displayedStatsYear := y }
    else some m
  else if key = "p" ∨ key = " " then
    some { m with autoProgress := !m.autoProgress }
  else if key = "enter" then
    if !m.autoProgress then
      match m.commits.get? m.currentCommitIndex with
      | none => none
      | some c =>
        some { m with diffState := DiffViewState.inDiffView,
                      diffScroll := 0,
                      commits := m.commits.set m.currentCommitIndex
                        (getDiff diffOf c).2.1,
                      currentDiff := (getDiff diffOf c).1 }
    else some m
  else some m

/-- Embeds the `tea.KeyMsg` branch of `Model.Update` (`src/app.go`) as one
step of the state machine: the DiffView inner switch when in DiffView,
otherwise the normal-mode switch.  `key` is the value of `msg.String()`.
`none` models a runtime panic from out-of-range slice indexing.  The
commands the Go code returns (`tea.Quit`, `nil`) are effects outside the
model state and are not represented; the in-place mutation of the commit
record by `getDiff` through its pointer is embedded as `List.set` at the
cursor index.  `Int.tmod` is Go's `%` (truncated division).  The Go local
variables of the handlers are inlined. -/
def stepKey (diffOf : String → String) (m : Model) (key : String) : Option Model :=
  if m.diffState = DiffViewState.inDiffView then
    stepKeyDiffView diffOf m key
  else
    stepKeyNormal diffOf m key

/-- Running a sequence of key events; `none` as soon as any step panics. -/
def runKeys (diffOf : String → String) : Model → List String → Option Model
  | m, [] => some m
  | m, k :: ks =>
    match stepKey diffOf m k with
    | none => none
    | some m' => runKeys diffOf m' ks

/-- **C10.** Pressing Enter in normal mode with auto-advance off before any
commit has been integrated evaluates `m.commits[m.currentCommitIndex]` with
index 0 on an empty slice: the key handler indexes the commit list out of
bounds (a Go runtime panic), which the embedding reports as `none`.  The
initial model (`InitialModel` with `autoProgress = false`, the default
configuration of `src/unnamed/part_000`) is exactly this state. -/
theorem enter_on_empty_commit_list_panics :
    stepKey (fun _ => "") (InitialModel false) "enter" = none ∧
    (InitialModel false).commits.length = 0 ∧
    (InitialModel false).currentCommitIndex = 0 := by
  refine ⟨?_, rfl, rfl⟩
  rfl

/-- A paused normal-mode state with two integrated commits and the cursor
on the second one. -/
def pausedAtSecond : Model :=
  { commits := [{ hash := "a", message := "ma", author := "x" },
                { hash := "b", message := "mb", author := "x" }],
    currentCommitIndex := 1, height := 10, maxAdditions := 0, maxDeletions := 0,
    autoProgress := false, loadingComplete := true,
    diffState := DiffViewState.notInDiffView, currentDiff := "", diffScroll := 0,
    displayedStatsYear := 0, availableStatYears := [0],
    currentStatYearIndex := 0 }

/-- **C5, counterexample.** Entering DiffView at cursor 1, pressing `left`
(which the DiffView switch handles by moving the cursor), then leaving with
`q` returns to paused normal mode with cursor 0 — not the cursor value 1
held at the moment DiffView was entered. -/
theorem diffview_exit_cursor_not_restored :
    pausedAtSecond.currentCommitIndex = 1 ∧
    (runKeys (fun _ => "d") pausedAtSecond ["enter", "left", "q"]).map
      Model.currentCommitIndex = some 0 ∧
    (runKeys (fun _ => "d") pausedAtSecond ["enter", "left", "q"]).map
      Model.diffState = some DiffViewState.notInDiffView ∧
    (runKeys (fun _ => "d") pausedAtSecond ["enter", "left", "q"]).map
      Model.autoProgress = some false := by
  refine ⟨rfl, ?_, ?_, ?_⟩ <;> rfl

/-- The DiffView keys that only scroll (no commit navigation). -/
def diffScrollKeys : List String :=
  ["up", "k", "down", "j", "pgup", "pgdown", " "]

theorem stepKey_scroll (d : String → String) (m : Model) (k : String)
    (hmode : m.diffState = DiffViewState.inDiffView)
    (hk : k ∈ diffScrollKeys) :
    ∃ s : Int, stepKey d m k = some { m with diffScroll := s } := by
  simp only [diffScrollKeys, List.mem_cons, List.not_mem_nil, or_false] at hk
  rcases hk with rfl | rfl | rfl | rfl | rfl | rfl | rfl
  · exact ⟨if m.diffScroll - 1 < 0 then 0 else m.diffScroll - 1,
      by simp [stepKey, stepKeyDiffView, hmode]⟩
  · exact ⟨if m.diffScroll - 1 < 0 then 0 else m.diffScroll - 1,
      by simp [stepKey, stepKeyDiffView, hmode]⟩
  · exact ⟨m.diffScroll + 1, by simp [stepKey, stepKeyDiffView, hmode]⟩
  · exact ⟨m.diffScroll + 1, by simp [stepKey, stepKeyDiffView, hmode]⟩
  · exact ⟨if m.diffScroll - m.height < 0 then 0 else m.diffScroll - m.height,
      by simp [stepKey, stepKeyDiffView, hmode]⟩
  · exact ⟨m.diffScroll + m.height, by simp [stepKey, stepKeyDiffView, hmode]⟩
  · exact ⟨m.diffScroll + m.height, by simp [stepKey, stepKeyDiffView, hmode]⟩

theorem runKeys_scroll_then_q (d : String → String) (ks : List String) :
    ∀ (m mf : Model), m.diffState = DiffViewState.inDiffView →
      (∀ k ∈ ks, k ∈ diffScrollKeys) →
      runKeys d m (ks ++ ["q"]) = some mf →
      mf.diffState = DiffViewState.notInDiffView ∧
      mf.currentCommitIndex = m.currentCommitIndex ∧
      mf.autoProgress = m.autoProgress := by
  induction ks with
  | nil =>
    intro m mf hmode _ hrun
    have hstep : stepKey d m "q" =
        some { m with diffState := DiffViewState.notInDiffView } := by
      simp [stepKey, stepKeyDiffView, hmode]
    simp only [List.nil_append, runKeys, hstep] at hrun
    injection hrun with h
    subst h
    exact ⟨rfl, rfl, rfl⟩
  | cons k ks ih =>
    intro m mf hmode hks hrun
    obtain ⟨s, hs⟩ := stepKey_scroll d m k hmode (hks k (List.mem_cons_self _ _))
    rw [List.cons_append] at hrun
    simp only [runKeys, hs] at hrun
    have := ih { m with diffScroll := s } mf hmode
      (fun k' hk' => hks k' (List.mem_cons_of_mem _ hk')) hrun
    exact this

/-- **C5, amended.** Leaving DiffView returns to paused normal mode with
the auto-advance flag as at entry (off, since DiffView is only entered when
paused); the cursor equals its entry value provided no commit-navigation
key (`left`/`h`/`right`/`l`) was pressed while in DiffView — such keys are
handled inside DiffView and move the cursor, so only the scroll-key
sequences preserve it. -/
theorem diffview_exit_restores_when_no_navigation
    (d : String → String) (m mf : Model) (ks : List String)
    (hmode : m.diffState = DiffViewState.notInDiffView)
    (hap : m.autoProgress = false)
    (hscroll : ∀ k ∈ ks, k ∈ diffScrollKeys)
    (hrun : runKeys d m (("enter" :: ks) ++ ["q"]) = some mf) :
    mf.diffState = DiffViewState.notInDiffView ∧
    mf.autoProgress = false ∧
    mf.currentCommitIndex = m.currentCommitIndex := by
  rw [List.cons_append] at hrun
  have hap2 : (!m.autoProgress) = true := by rw [hap]; rfl
  cases hget : m.commits[m.currentCommitIndex]? with
  | none =>
    have hstep : stepKey d m "enter" = none := by
      simp [stepKey, stepKeyNormal, hmode, hap2, hget]
    simp only [runKeys, hstep] at hrun
    cases hrun
  | some c =>
    have hstep : stepKey d m "enter" =
        some { m with diffState := DiffViewState.inDiffView,
                      diffScroll := 0,
                      commits := m.commits.set m.currentCommitIndex (getDiff d c).2.1,
                      currentDiff := (getDiff d c).1 } := by
      simp [stepKey, stepKeyNormal, hmode, hap2, hget]
    simp only [runKeys, hstep] at hrun
    have h := runKeys_scroll_then_q d ks _ mf rfl hscroll hrun
    exact ⟨h.1, h.2.2.trans hap, h.2.1⟩

theorem diffview_exit_restores_when_no_navigation_witness :
    (runKeys (fun _ => "d") pausedAtSecond (("enter" :: ["down"]) ++ ["q"])).map
        (fun mf => (mf.diffState, mf.autoProgress, mf.currentCommitIndex)) =
      some (DiffViewState.notInDiffView, false, 1) := by
  cases hrun : runKeys (fun _ => "d") pausedAtSecond (("enter" :: ["down"]) ++ ["q"]) with
  | none => exact absurd hrun (by decide)
  | some mf =>
    have h := diffview_exit_restores_when_no_navigation (fun _ => "d")
      pausedAtSecond mf ["down"] rfl rfl (by decide) hrun
    show some (mf.diffState, mf.autoProgress, mf.currentCommitIndex) =
      some (DiffViewState.notInDiffView, false, 1)
    rw [h.1, h.2.1, h.2.2]
    rfl

/-- Splitting a character list at every newline, accumulator of the
current segment's characters in reverse. -/
def splitLinesAux : List Char → List Char → List String
  | [], acc => [String.mk acc.reverse]
  | c :: cs, acc =>
    if c = '\n' then String.mk acc.reverse :: splitLinesAux cs []
    else splitLinesAux cs (c :: acc)

/-- Embeds `strings.Split(s, "\n")` as used by `renderDiffView`
(`src/app.go`): one more segment than there are newlines; the empty string
splits into `[""]`. -/
def splitLines (s : String) : List String :=
  splitLinesAux s.data []

/-- Embeds the scroll-window computation of `renderDiffView`
(`src/app.go`): `start`/`stop` are the slice bounds (`start`/`end` in the
source; `end` is a reserved word here) applied to the lines of the current
diff text. -/
def diffVisibleBounds (m : Model) : Int × Int :=
  let lines := splitLines m.currentDiff
  let start0 := m.diffScroll
  let stop0 := start0 + m.height
  let start1 := if start0 < 0 then 0 else start0
  let stop1 := if stop0 > (lines.length : Int) then (lines.length : Int) else stop0
  let start2 := if start1 > stop1 then stop1 else start1
  (start2, stop1)

/-- A DiffView state whose current diff text has exactly one line. -/
def diffViewShort : Model :=
  { commits := [], currentCommitIndex := 0, height := 5, maxAdditions := 0,
    maxDeletions := 0, autoProgress := false, loadingComplete := true,
    diffState := DiffViewState.inDiffView, currentDiff := "x", diffScroll := 0,
    displayedStatsYear := 0, availableStatYears := [],
    currentStatYearIndex := 0 }

/-- **C7, counterexample.** Two `down` scroll inputs on a one-line diff
leave the stored scroll offset at 2, above the line count 1: the `down`
handler increments `diffScroll` without any upper clamp, so the stored
offset does not stay in `[0, line_count]`. -/
theorem diff_scroll_exceeds_line_count :
    (splitLines diffViewShort.currentDiff).length = 1 ∧
    (runKeys (fun _ => "") diffViewShort ["down", "down"]).map Model.diffScroll =
      some 2 ∧
    ¬((2 : Int) ≤ 1) := by
  refine ⟨by decide, by decide, by decide⟩

theorem stepKeyDiffView_inv (d : String → String) (m : Model) (k : String)
    (m' : Model) (h : stepKeyDiffView d m k = some m') :
    m'.height = m.height ∧
    (0 ≤ m.height → 0 ≤ m.diffScroll → 0 ≤ m'.diffScroll) := by
  unfold stepKeyDiffView at h
  repeat' split at h
  all_goals cases h
  all_goals refine ⟨rfl, ?_⟩
  all_goals intro hh hs
  all_goals try exact hs
  all_goals dsimp only
  all_goals omega

theorem stepKeyNormal_inv (d : String → String) (m : Model) (k : String)
    (m' : Model) (h : stepKeyNormal d m k = some m') :
    m'.height = m.height ∧
    (0 ≤ m.height → 0 ≤ m.diffScroll → 0 ≤ m'.diffScroll) := by
  unfold stepKeyNormal at h
  repeat' split at h
  all_goals cases h
  all_goals refine ⟨rfl, ?_⟩
  all_goals intro hh hs
  all_goals try exact hs
  all_goals dsimp only
  all_goals omega

theorem stepKey_height_eq (d : String → String) (m : Model) (k : String)
    (m' : Model) (h : stepKey d m k = some m') : m'.height = m.height := by
  unfold stepKey at h
  split at h
  · exact (stepKeyDiffView_inv d m k m' h).1
  · exact (stepKeyNormal_inv d m k m' h).1

theorem stepKey_diffScroll_nonneg (d : String → String) (m : Model) (k : String)
    (m' : Model) (hh : 0 ≤ m.height) (hs : 0 ≤ m.diffScroll)
    (h : stepKey d m k = some m') : 0 ≤ m'.diffScroll := by
  unfold stepKey at h
  split at h
  · exact (stepKeyDiffView_inv d m k m' h).2 hh hs
  · exact (stepKeyNormal_inv d m k m' h).2 hh hs

theorem runKeys_diffScroll_nonneg (d : String → String) (ks : List String) :
    ∀ (m mf : Model), 0 ≤ m.height → 0 ≤ m.diffScroll →
      runKeys d m ks = some mf → 0 ≤ mf.diffScroll := by
  induction ks with
  | nil =>
    intro m mf _ hs hrun
    simp only [runKeys] at hrun
    injection hrun with h
    subst h
    exact hs
  | cons k ks ih =>
    intro m mf hh hs hrun
    simp only [runKeys] at hrun
    cases hstep : stepKey d m k with
    | none => rw [hstep] at hrun; cases hrun
    | some m' =>
      rw [hstep] at hrun
      have hh' : 0 ≤ m'.height := by
        rw [stepKey_height_eq d m k m' hstep]; exact hh
      exact ih m' mf hh' (stepKey_diffScroll_nonneg d m k m' hh hs hstep) hrun

theorem diffVisibleBounds_clamped (m : Model) (hh : 0 ≤ m.height)
    (hs : 0 ≤ m.diffScroll) :
    0 ≤ (diffVisibleBounds m).1 ∧
    (diffVisibleBounds m).1 ≤ (diffVisibleBounds m).2 ∧
    (diffVisibleBounds m).2 ≤ ((splitLines m.currentDiff).length : Int) := by
  unfold diffVisibleBounds
  dsimp only
  split_ifs <;> omega

theorem runKeys_height_eq (d : String → String) (ks : List String) :
    ∀ (m mf : Model), runKeys d m ks = some mf → mf.height = m.height := by
  induction ks with
  | nil =>
    intro m mf hrun
    simp only [runKeys] at hrun
    injection hrun with h
    subst h
    rfl
  | cons k ks ih =>
    intro m mf hrun
    simp only [runKeys] at hrun
    cases hstep : stepKey d m k with
    | none => rw [hstep] at hrun; cases hrun
    | some m' =>
      rw [hstep] at hrun
      rw [ih m' mf hrun, stepKey_height_eq d m k m' hstep]

/-- **C7, amended.** Under every sequence of key inputs the stored scroll
offset stays clamped below at 0 (for nonnegative viewport height), but it
is *not* clamped above by the line count — `down`/page-down increment it
without bound.  The clamping to `[0, line_count]` happens on the slice
bounds computed by the renderer: `0 ≤ start ≤ end ≤ line_count`, so only
indices within `[0, line_count]` are ever used.  Page-up/down still move
the stored offset by exactly one viewport height. -/
theorem diff_scroll_lower_clamped_render_bounded
    (d : String → String) (m mf : Model) (ks : List String)
    (hh : 0 ≤ m.height) (hs : 0 ≤ m.diffScroll)
    (hrun : runKeys d m ks = some mf) :
    0 ≤ mf.diffScroll ∧
    (0 ≤ (diffVisibleBounds mf).1 ∧
      (diffVisibleBounds mf).1 ≤ (diffVisibleBounds mf).2 ∧
      (diffVisibleBounds mf).2 ≤ ((splitLines mf.currentDiff).length : Int)) ∧
    (∀ m' : Model, m'.diffState = DiffViewState.inDiffView →
      stepKey d m' "pgdown" =
        some { m' with diffScroll := m'.diffScroll + m'.height } ∧
      stepKey d m' "pgup" =
        some { m' with diffScroll :=
          if m'.diffScroll - m'.height < 0 then 0
          else m'.diffScroll - m'.height }) := by
  have hgt := runKeys_height_eq d ks m mf hrun
  have hnn := runKeys_diffScroll_nonneg d ks m mf hh hs hrun
  have hb := diffVisibleBounds_clamped mf (by rw [hgt]; exact hh) hnn
  refine ⟨hnn, hb, ?_⟩
  intro m' hm'
  constructor
  · simp [stepKey, stepKeyDiffView, hm']
  · simp [stepKey, stepKeyDiffView, hm']

theorem diff_scroll_lower_clamped_render_bounded_witness :
    (runKeys (fun _ => "") diffViewShort ["down", "down"]).map
        (fun mf => (decide (0 ≤ mf.diffScroll),
          decide ((diffVisibleBounds mf).2 ≤
            ((splitLines mf.currentDiff).length : Int)))) =
      some (true, true) := by
  cases hrun : runKeys (fun _ => "") diffViewShort ["down", "down"] with
  | none => exact absurd hrun (by decide)
  | some mf =>
    have h := diff_scroll_lower_clamped_render_bounded (fun _ => "")
      diffViewShort mf ["down", "down"] (by decide) (by decide) hrun
    show some ((decide (0 ≤ mf.diffScroll)),
      (decide ((diffVisibleBounds mf).2 ≤
        ((splitLines mf.currentDiff).length : Int)))) = some (true, true)
    rw [decide_eq_true h.1, decide_eq_true h.2.1.2.2]

theorem indexInt_some (l : List Int) (i : Int) (h0 : 0 ≤ i)
    (hl : i < (l.length : Int)) :
    ∃ y, indexInt l i = some y ∧ y ∈ l := by
  have hn : i.toNat < l.length := by omega
  refine ⟨l.get ⟨i.toNat, hn⟩, ?_, List.get_mem l i.toNat hn⟩
  unfold indexInt
  rw [if_pos h0, List.get?_eq_get hn]

/-- **C9.** Year-cycle navigation is total and cyclic over the year list
(`{all-time} ∪ {distinct years}` as materialized in `availableStatYears`):
from any in-range index, `down` (cycle forward) and `up` (cycle backward)
succeed without panicking, keep the index in range, keep the selected year
an element of the unchanged list, and wrap — forward from the last entry to
the first, backward from the first entry to the last. -/
theorem year_cycle_total_and_cyclic (d : String → String) (m : Model)
    (hmode : m.diffState = DiffViewState.notInDiffView)
    (hne : m.availableStatYears ≠ [])
    (h0 : 0 ≤ m.currentStatYearIndex)
    (hlt : m.currentStatYearIndex < (m.availableStatYears.length : Int)) :
    (∃ m', stepKey d m "down" = some m' ∧
      0 ≤ m'.currentStatYearIndex ∧
      m'.currentStatYearIndex < (m.availableStatYears.length : Int) ∧
      m'.displayedStatsYear ∈ m.availableStatYears ∧
      m'.availableStatYears = m.availableStatYears ∧
      (m.currentStatYearIndex = (m.availableStatYears.length : Int) - 1 →
        m'.currentStatYearIndex = 0)) ∧
    (∃ m', stepKey d m "up" = some m' ∧
      0 ≤ m'.currentStatYearIndex ∧
      m'.currentStatYearIndex < (m.availableStatYears.length : Int) ∧
      m'.displayedStatsYear ∈ m.availableStatYears ∧
      m'.availableStatYears = m.availableStatYears ∧
      (m.currentStatYearIndex = 0 →
        m'.currentStatYearIndex = (m.availableStatYears.length : Int) - 1)) := by
  have hlen : 0 < m.availableStatYears.length := List.length_pos.mpr hne
  have hL : (0 : Int) < (m.availableStatYears.length : Int) := by exact_mod_cast hlen
  constructor
  · -- down: index becomes (i + 1) tmod length
    have hi0 : 0 ≤ (m.currentStatYearIndex + 1).tmod
        (m.availableStatYears.length : Int) :=
      Int.tmod_nonneg _ (by omega)
    have hiL : (m.currentStatYearIndex + 1).tmod
        (m.availableStatYears.length : Int) <
        (m.availableStatYears.length : Int) :=
      Int.tmod_lt_of_pos _ hL
    obtain ⟨y, hy, hmem⟩ := indexInt_some m.availableStatYears _ hi0 hiL
    refine ⟨{ m with
        currentStatYearIndex := (m.currentStatYearIndex + 1).tmod
          (m.availableStatYears.length : Int),
        displayedStatsYear := y }, ?_, hi0, hiL, hmem, rfl, ?_⟩
    · simp [stepKey, stepKeyNormal, hmode, hlen, hy]
    · intro heq
      show (m.currentStatYearIndex + 1).tmod
        (m.availableStatYears.length : Int) = 0
      rw [heq]
      have : (m.availableStatYears.length : Int) - 1 + 1 =
          (m.availableStatYears.length : Int) := by omega
      rw [this, Int.tmod_self]
  · -- up: index decremented, wrapping below zero to length - 1
    by_cases hc : m.currentStatYearIndex - 1 < 0
    · have hidx0 : m.currentStatYearIndex = 0 := by omega
      have hi0 : 0 ≤ (m.availableStatYears.length : Int) - 1 := by omega
      have hiL : (m.availableStatYears.length : Int) - 1 <
          (m.availableStatYears.length : Int) := by omega
      obtain ⟨y, hy, hmem⟩ := indexInt_some m.availableStatYears _ hi0 hiL
      refine ⟨{ m with
          currentStatYearIndex := (m.availableStatYears.length : Int) - 1,
          displayedStatsYear := y }, ?_, hi0, hiL, hmem, rfl, fun _ => rfl⟩
      simp [stepKey, stepKeyNormal, hmode, hlen, hc, hy]
    · have hi0 : 0 ≤ m.currentStatYearIndex - 1 := by omega
      have hiL : m.currentStatYearIndex - 1 <
          (m.availableStatYears.length : Int) := by omega
      obtain ⟨y, hy, hmem⟩ := indexInt_some m.availableStatYears _ hi0 hiL
      refine ⟨{ m with
          currentStatYearIndex := m.currentStatYearIndex - 1,
          displayedStatsYear := y }, ?_, hi0, hiL, hmem, rfl, ?_⟩
      · simp [stepKey, stepKeyNormal, hmode, hlen, hc, hy]
      · intro heq
        exfalso
        omega

/-- A normal-mode state whose year list is `[0, 2021]` (all-time sentinel
plus one year) with the pointer on the last entry. -/
def yearCycleSample : Model :=
  { commits := [], currentCommitIndex := 0, height := 0, maxAdditions := 0,
    maxDeletions := 0, autoProgress := false, loadingComplete := false,
    diffState := DiffViewState.notInDiffView, currentDiff := "", diffScroll := 0,
    displayedStatsYear := 2021, availableStatYears := [0, 2021],
    currentStatYearIndex := 1 }

theorem year_cycle_total_and_cyclic_witness :
    (∃ m', stepKey (fun _ => "") yearCycleSample "down" = some m' ∧
      0 ≤ m'.currentStatYearIndex ∧
      m'.currentStatYearIndex < (yearCycleSample.availableStatYears.length : Int) ∧
      m'.displayedStatsYear ∈ yearCycleSample.availableStatYears ∧
      m'.availableStatYears = yearCycleSample.availableStatYears ∧
      (yearCycleSample.currentStatYearIndex =
          (yearCycleSample.availableStatYears.length : Int) - 1 →
        m'.currentStatYearIndex = 0)) ∧
    (∃ m', stepKey (fun _ => "") yearCycleSample "up" = some m' ∧
      0 ≤ m'.currentStatYearIndex ∧
      m'.currentStatYearIndex < (yearCycleSample.availableStatYears.length : Int) ∧
      m'.displayedStatsYear ∈ yearCycleSample.availableStatYears ∧
      m'.availableStatYears = yearCycleSample.availableStatYears ∧
      (yearCycleSample.currentStatYearIndex = 0 →
        m'.currentStatYearIndex =
          (yearCycleSample.availableStatYears.length : Int) - 1)) :=
  year_cycle_total_and_cyclic (fun _ => "") yearCycleSample rfl
    (by decide) (by decide) (by decide)

/-- One `authorChurn[c.Author] += c.Churn` map update of
`renderDeveloperStats` (`src/app.go`), on the map content represented as an
association list kept in first-seen key order. -/
def addChurn (acc : List (String × Nat)) (author : String) (churn : Nat) :
    List (String × Nat) :=
  match acc with
  | [] => [(author, churn)]
  | (a, c) :: rest =>
    if a = author then (a, c + churn) :: rest
    else (a, c) :: addChurn rest author churn

/-- The `authorChurn` map built by `renderDeveloperStats` (`src/app.go`)
over the analyzed commits, as an association list in first-seen order.  The
map's *content* is deterministic; the order in which `range` iterates it is
not specified by Go, so the list handed to the sort is an arbitrary
permutation of these entries. -/
def authorChurnList (cs : List CommitInfo) : List (String × Nat) :=
  cs.foldl (fun acc c => addChurn acc c.author c.churn) []

/-- Stable insertion into a churn-descending list: the new entry goes
before the first entry whose churn is not larger, so entries of equal
churn keep their relative order (Go's insertion sort swaps an element left
only past strictly lower-ranked neighbors, giving the same behavior). -/
def insertDesc (x : String × Nat) : List (String × Nat) → List (String × Nat)
  | [] => [x]
  | y :: rest => if x.2 ≥ y.2 then x :: y :: rest else y :: insertDesc x rest

/-- Embeds `sort.Slice(topContributors, func(i, j) { churn i > churn j })`
(`src/app.go`).  `sort.Slice` guarantees only the ordering, never
stability; on the short slices at hand Go performs insertion sort, which
this definition mirrors. -/
def sortByChurnDesc : List (String × Nat) → List (String × Nat)
  | [] => []
  | x :: rest => insertDesc x (sortByChurnDesc rest)

/-- The displayed top-contributor entries: the render loop runs
`i < len(topContributors) && i < 5`. -/
def topContributorsDisplayed (entries : List (String × Nat)) :
    List (String × Nat) :=
  (sortByChurnDesc entries).take 5

/-- The tie-breaking property the claim asserts: entries with equal total
churn appear in the order their authors were first seen. -/
def tiesRespectFirstSeen (firstSeen ranked : List (String × Nat)) : Prop :=
  List.Pairwise (fun x y => x.2 = y.2 →
    (firstSeen.map Prod.fst).indexOf x.1 ≤ (firstSeen.map Prod.fst).indexOf y.1)
    ranked

/-- Two commits by different authors with equal churn, alice first. -/
def sampleTiedCommits : List CommitInfo :=
  [{ hash := "h1", message := "m1", author := "alice", churn := 5 },
   { hash := "h2", message := "m2", author := "bob", churn := 5 }]

/-- A map iteration order Go is free to produce: bob's entry first. -/
def tiedIterationOrder : List (String × Nat) := [("bob", 5), ("alice", 5)]

/-- **C6, counterexample.** The authors are collected by iterating a Go
map, whose iteration order is unspecified (and deliberately randomized by
the runtime); with the admissible iteration order that yields bob's entry
before alice's, the ranked output lists bob before alice although both
have churn 5 and alice was first seen — the tie is not broken by
first-seen order. -/
theorem top_contributors_tie_not_first_seen :
    authorChurnList sampleTiedCommits = [("alice", 5), ("bob", 5)] ∧
    tiedIterationOrder.Perm (authorChurnList sampleTiedCommits) ∧
    topContributorsDisplayed tiedIterationOrder = [("bob", 5), ("alice", 5)] ∧
    ¬ tiesRespectFirstSeen (authorChurnList sampleTiedCommits)
        (topContributorsDisplayed tiedIterationOrder) := by
  refine ⟨by decide, by decide, by decide, ?_⟩
  unfold tiesRespectFirstSeen
  decide

theorem insertDesc_perm (x : String × Nat) (l : List (String × Nat)) :
    (insertDesc x l).Perm (x :: l) := by
  induction l with
  | nil => exact List.Perm.refl _
  | cons y rest ih =>
    unfold insertDesc
    split
    · exact List.Perm.refl _
    · exact (ih.cons y).trans (List.Perm.swap x y rest)

theorem sortByChurnDesc_perm (l : List (String × Nat)) :
    (sortByChurnDesc l).Perm l := by
  induction l with
  | nil => exact List.Perm.refl _
  | cons x rest ih =>
    exact (insertDesc_perm x (sortByChurnDesc rest)).trans (ih.cons x)

theorem insertDesc_pairwise (x : String × Nat) (l : List (String × Nat))
    (h : List.Pairwise (fun a b : String × Nat => b.2 ≤ a.2) l) :
    List.Pairwise (fun a b : String × Nat => b.2 ≤ a.2) (insertDesc x l) := by
  induction l with
  | nil => exact List.pairwise_singleton _ x
  | cons y rest ih =>
    obtain ⟨hy, hrest⟩ := List.pairwise_cons.mp h
    unfold insertDesc
    split
    · rename_i hgt
      refine List.pairwise_cons.mpr ⟨?_, h⟩
      intro z hz
      rcases List.mem_cons.mp hz with rfl | hz'
      · omega
      · have := hy z hz'
        omega
    · rename_i hngt
      refine List.pairwise_cons.mpr ⟨?_, ih hrest⟩
      intro z hz
      have hz' := (insertDesc_perm x rest).mem_iff.mp hz
      rcases List.mem_cons.mp hz' with rfl | hz''
      · omega
      · exact hy z hz''

theorem sortByChurnDesc_pairwise (l : List (String × Nat)) :
    List.Pairwise (fun a b : String × Nat => b.2 ≤ a.2) (sortByChurnDesc l) := by
  induction l with
  | nil => exact List.Pairwise.nil
  | cons x rest ih => exact insertDesc_pairwise x (sortByChurnDesc rest) ih

/-- **C6, amended.** The displayed top-contributor list is the
churn-descending sort of the author/total-churn entries (a permutation of
the aggregated map content), truncated to at most 5 entries.  The relative
order of authors with equal total churn is *not* specified: it depends on
the map iteration order, not on first-seen order. -/
theorem top_contributors_sorted_perm_capped (cs : List CommitInfo)
    (entries : List (String × Nat))
    (hperm : entries.Perm (authorChurnList cs)) :
    (sortByChurnDesc entries).Perm (authorChurnList cs) ∧
    List.Pairwise (fun a b : String × Nat => b.2 ≤ a.2)
      (sortByChurnDesc entries) ∧
    (topContributorsDisplayed entries).length ≤ 5 ∧
    topContributorsDisplayed entries = (sortByChurnDesc entries).take 5 :=
  ⟨(sortByChurnDesc_perm entries).trans hperm,
   sortByChurnDesc_pairwise entries,
   List.length_take_le 5 _,
   rfl⟩

theorem top_contributors_sorted_perm_capped_witness :
    (sortByChurnDesc tiedIterationOrder).Perm
      (authorChurnList sampleTiedCommits) ∧
    List.Pairwise (fun a b : String × Nat => b.2 ≤ a.2)
      (sortByChurnDesc tiedIterationOrder) ∧
    (topContributorsDisplayed tiedIterationOrder).length ≤ 5 ∧
    topContributorsDisplayed tiedIterationOrder =
      (sortByChurnDesc tiedIterationOrder).take 5 :=
  top_contributors_sorted_perm_capped sampleTiedCommits tiedIterationOrder
    (by decide)

/-- Embeds the Go struct `BrailleCanvas` (`src/unnamed` braille canvas
file): a `width*height` boolean sub-pixel buffer. -/
structure BrailleCanvas where
  Width : Nat
  Height : Nat
  buffer : List Bool
  deriving Repr, DecidableEq

/-- Embeds `NewBrailleCanvas`: an all-false buffer of `width*height`. -/
def NewBrailleCanvas (width height : Nat) : BrailleCanvas :=
  { Width := width, Height := height,
    buffer := List.replicate (width * height) false }

/-- Embeds the bounds-checked read `BrailleCanvas.get`: out of range reads
as `false`, in range reads `buffer[y*Width+x]`. -/
def BrailleCanvas.get (c : BrailleCanvas) (x y : Int) : Bool :=
  if x < 0 ∨ (c.Width : Int) ≤ x ∨ y < 0 ∨ (c.Height : Int) ≤ y then false
  else c.buffer.getD (y * (c.Width : Int) + x).toNat false

/-- Embeds the bounds-checked write `BrailleCanvas.Set`: out of range is a
no-op, in range sets `buffer[y*Width+x]` to `true`. -/
def BrailleCanvas.Set (c : BrailleCanvas) (x y : Int) : BrailleCanvas :=
  if x < 0 ∨ (c.Width : Int) ≤ x ∨ y < 0 ∨ (c.Height : Int) ≤ y then c
  else { c with buffer := c.buffer.set (y * (c.Width : Int) + x).toNat true }

/-- The bit accumulation of `BrailleCanvas.String` for one character cell:
`r := 0x2800` then eight `r |= bit` steps guarded by the eight sub-pixel
reads. -/
def braillePack (b1 b2 b3 b4 b5 b6 b7 b8 : Bool) : Nat :=
  let r := 0x2800
  let r := if b1 then r ||| 1 else r
  let r := if b2 then r ||| 2 else r
  let r := if b3 then r ||| 4 else r
  let r := if b4 then r ||| 8 else r
  let r := if b5 then r ||| 16 else r
  let r := if b6 then r ||| 32 else r
  let r := if b7 then r ||| 64 else r
  let r := if b8 then r ||| 128 else r
  r

/-- The rune `BrailleCanvas.String` emits for the 2×4 block with origin
`(x, y)`: the eight reads in the source's order `(x,y) → 1`, `(x,y+1) → 2`,
`(x,y+2) → 4`, `(x+1,y) → 8`, `(x+1,y+1) → 16`, `(x+1,y+2) → 32`,
`(x,y+3) → 64`, `(x+1,y+3) → 128`. -/
def cellRune (c : BrailleCanvas) (x y : Int) : Nat :=
  braillePack (c.get x y) (c.get x (y + 1)) (c.get x (y + 2))
    (c.get (x + 1) y) (c.get (x + 1) (y + 1)) (c.get (x + 1) (y + 2))
    (c.get x (y + 3)) (c.get (x + 1) (y + 3))

/-- One output row of `BrailleCanvas.String`: the inner loop
`for x := 0; x < Width; x += 2` emits `ceil(Width/2)` runes. -/
def rowRunes (c : BrailleCanvas) (y : Int) : List Nat :=
  (List.range ((c.Width + 1) / 2)).map (fun i : Nat => cellRune c (2 * (i : Int)) y)

/-- All output rows of `BrailleCanvas.String`: the outer loop
`for y := 0; y < Height; y += 4` emits `ceil(Height/4)` rows. -/
def canvasRunes (c : BrailleCanvas) : List (List Nat) :=
  (List.range ((c.Height + 3) / 4)).map (fun j : Nat => rowRunes c (4 * (j : Int)))

/-- Embeds `BrailleCanvas.String`: every row's runes followed by a
newline. -/
def BrailleCanvas.String (c : BrailleCanvas) : String :=
  String.join ((canvasRunes c).map (fun row =>
    String.mk (row.map Char.ofNat) ++ "\n"))

/-- The glyph at character cell `(i, j)` of the rendered frame. -/
def glyphAt (c : BrailleCanvas) (i j : Nat) : Nat :=
  ((canvasRunes c).getD j []).getD i 0

/-- The bit the fixed dot-to-bit mapping assigns to the sub-pixel at
offset `(dx, dy)` within its 2×4 block. -/
def dotBit (dx dy : Nat) : Nat :=
  match dx, dy with
  | 0, 0 => 1
  | 0, 1 => 2
  | 0, 2 => 4
  | 0, 3 => 64
  | _, 0 => 8
  | _, 1 => 16
  | _, 2 => 32
  | _, _ => 128

theorem braillePack_sum (b1 b2 b3 b4 b5 b6 b7 b8 : Bool) :
    braillePack b1 b2 b3 b4 b5 b6 b7 b8 =
      0x2800 + (cond b1 1 0) + (cond b2 2 0) + (cond b3 4 0) +
        (cond b4 8 0) + (cond b5 16 0) + (cond b6 32 0) +
        (cond b7 64 0) + (cond b8 128 0) := by
  revert b1 b2 b3 b4 b5 b6 b7 b8
  decide

theorem glyphAt_eq_cellRune (c : BrailleCanvas) (i j : Nat)
    (hi : i < (c.Width + 1) / 2) (hj : j < (c.Height + 3) / 4) :
    glyphAt c i j = cellRune c (2 * (i : Int)) (4 * (j : Int)) := by
  unfold glyphAt canvasRunes rowRunes
  simp [List.getD_eq_getElem?_getD, List.getElem?_map, List.getElem?_range, hj, hi]

theorem natIndex_inj (W a b c0 d : Nat) (hb : b < W) (hd : d < W)
    (h : a * W + b = c0 * W + d) : a = c0 ∧ b = d := by
  have hbd : b = d := by
    have h1 : (b + a * W) % W = b % W := Nat.add_mul_mod_self_right b a W
    have h2 : (d + c0 * W) % W = d % W := Nat.add_mul_mod_self_right d c0 W
    have he : b + a * W = d + c0 * W := by omega
    rw [he, h2] at h1
    rw [Nat.mod_eq_of_lt hd, Nat.mod_eq_of_lt hb] at h1
    exact h1.symm
  subst hbd
  have hW : 0 < W := Nat.lt_of_le_of_lt (Nat.zero_le b) hb
  have hac : a * W = c0 * W := by omega
  exact ⟨Nat.eq_of_mul_eq_mul_right hW hac, rfl⟩

theorem braille_set_dims (c : BrailleCanvas) (x y : Int) :
    (c.Set x y).Width = c.Width ∧ (c.Set x y).Height = c.Height := by
  unfold BrailleCanvas.Set
  split <;> exact ⟨rfl, rfl⟩

theorem braille_get_set (c : BrailleCanvas)
    (hbuf : c.buffer.length = c.Width * c.Height)
    (px py : Nat) (hpx : px < c.Width) (hpy : py < c.Height) (x y : Int) :
    (c.Set (px : Int) (py : Int)).get x y =
      if x = (px : Int) ∧ y = (py : Int) then true else c.get x y := by
  have hset : c.Set (px : Int) (py : Int) =
      { c with buffer := c.buffer.set (py * c.Width + px) true } := by
    unfold BrailleCanvas.Set
    rw [if_neg (by omega)]
    have hidx : (((py : Int)) * (c.Width : Int) + (px : Int)).toNat =
        py * c.Width + px := by
      simp only [← Nat.cast_mul, ← Nat.cast_add, Int.toNat_natCast]
    rw [hidx]
  rw [hset]
  unfold BrailleCanvas.get
  dsimp only
  by_cases hb : x < 0 ∨ (c.Width : Int) ≤ x ∨ y < 0 ∨ (c.Height : Int) ≤ y
  · rw [if_pos hb]
    have hne : ¬(x = (px : Int) ∧ y = (py : Int)) := by
      rintro ⟨rfl, rfl⟩
      omega
    rw [if_neg hne, if_pos hb]
  · rw [if_neg hb]
    obtain ⟨a, rfl⟩ := Int.eq_ofNat_of_zero_le (by omega : (0 : Int) ≤ x)
    obtain ⟨b, rfl⟩ := Int.eq_ofNat_of_zero_le (by omega : (0 : Int) ≤ y)
    have ha : a < c.Width := by omega
    have hbH : b < c.Height := by omega
    have hidx : (((b : Int)) * (c.Width : Int) + (a : Int)).toNat =
        b * c.Width + a := by
      simp only [← Nat.cast_mul, ← Nat.cast_add, Int.toNat_natCast]
    rw [hidx]
    by_cases heq : ((a : Int)) = (px : Int) ∧ ((b : Int)) = (py : Int)
    · obtain ⟨h1, h2⟩ := heq
      have ha' : a = px := by exact_mod_cast h1
      have hb' : b = py := by exact_mod_cast h2
      subst ha'
      subst hb'
      rw [if_pos ⟨rfl, rfl⟩]
      have hn : b * c.Width + a < c.buffer.length := by
        rw [hbuf]
        calc b * c.Width + a < b * c.Width + c.Width := by omega
          _ = (b + 1) * c.Width := by ring
          _ ≤ c.Height * c.Width := Nat.mul_le_mul_right _ (by omega)
          _ = c.Width * c.Height := Nat.mul_comm _ _
      rw [List.getD_eq_getElem?_getD, List.getElem?_set_self' ]
      rw [List.getElem?_eq_getElem hn]
      simp
    · rw [if_neg heq]
      rw [if_neg hb]
      have hne : py * c.Width + px ≠ b * c.Width + a := by
        intro hcon
        obtain ⟨e1, e2⟩ := natIndex_inj c.Width b a py px ha hpx hcon.symm
        exact heq ⟨by exact_mod_cast e2, by exact_mod_cast e1⟩
      rw [List.getD_eq_getElem?_getD, List.getElem?_set_ne hne,
        ← List.getD_eq_getElem?_getD]

theorem braillePack_or (b1 b2 b3 b4 b5 b6 b7 b8 : Bool) :
    braillePack true b2 b3 b4 b5 b6 b7 b8 =
      braillePack b1 b2 b3 b4 b5 b6 b7 b8 ||| 1 ∧
    braillePack b1 true b3 b4 b5 b6 b7 b8 =
      braillePack b1 b2 b3 b4 b5 b6 b7 b8 ||| 2 ∧
    braillePack b1 b2 true b4 b5 b6 b7 b8 =
      braillePack b1 b2 b3 b4 b5 b6 b7 b8 ||| 4 ∧
    braillePack b1 b2 b3 true b5 b6 b7 b8 =
      braillePack b1 b2 b3 b4 b5 b6 b7 b8 ||| 8 ∧
    braillePack b1 b2 b3 b4 true b6 b7 b8 =
      braillePack b1 b2 b3 b4 b5 b6 b7 b8 ||| 16 ∧
    braillePack b1 b2 b3 b4 b5 true b7 b8 =
      braillePack b1 b2 b3 b4 b5 b6 b7 b8 ||| 32 ∧
    braillePack b1 b2 b3 b4 b5 b6 true b8 =
      braillePack b1 b2 b3 b4 b5 b6 b7 b8 ||| 64 ∧
    braillePack b1 b2 b3 b4 b5 b6 b7 true =
      braillePack b1 b2 b3 b4 b5 b6 b7 b8 ||| 128 := by
  revert b1 b2 b3 b4 b5 b6 b7 b8
  decide

set_option maxHeartbeats 2000000 in
/-- **C8.** For every canvas and every character cell, the dot-matrix
renderer packs the aligned 2×4 block of sub-pixels into one glyph: the
output rune for block origin `(2i, 4j)` is `0x2800` plus bit 1 for
`(x,y)`, 2 for `(x,y+1)`, 4 for `(x,y+2)`, 8 for `(x+1,y)`, 16 for
`(x+1,y+1)`, 32 for `(x+1,y+2)`, 64 for `(x,y+3)`, 128 for `(x+1,y+3)`;
and setting the sub-pixel `(px,py)` leaves every glyph other than the one
at `(px/2, py/4)` unchanged while or-ing exactly the mapped bit into that
one glyph. -/
theorem braille_glyph_packing (c : BrailleCanvas) (i j px py : Nat)
    (hbuf : c.buffer.length = c.Width * c.Height)
    (hi : i < (c.Width + 1) / 2) (hj : j < (c.Height + 3) / 4)
    (hpx : px < c.Width) (hpy : py < c.Height) :
    glyphAt c i j =
      0x2800 + (cond (c.get (2*(i:Int)) (4*(j:Int))) 1 0)
        + (cond (c.get (2*(i:Int)) (4*(j:Int)+1)) 2 0)
        + (cond (c.get (2*(i:Int)) (4*(j:Int)+2)) 4 0)
        + (cond (c.get (2*(i:Int)+1) (4*(j:Int))) 8 0)
        + (cond (c.get (2*(i:Int)+1) (4*(j:Int)+1)) 16 0)
        + (cond (c.get (2*(i:Int)+1) (4*(j:Int)+2)) 32 0)
        + (cond (c.get (2*(i:Int)) (4*(j:Int)+3)) 64 0)
        + (cond (c.get (2*(i:Int)+1) (4*(j:Int)+3)) 128 0) ∧
    ((i ≠ px / 2 ∨ j ≠ py / 4) →
      glyphAt (c.Set (px : Int) (py : Int)) i j = glyphAt c i j) ∧
    glyphAt (c.Set (px : Int) (py : Int)) (px / 2) (py / 4) =
      glyphAt c (px / 2) (py / 4) ||| dotBit (px % 2) (py % 4) := by
  have hget := braille_get_set c hbuf px py hpx hpy
  have hd := braille_set_dims c (px : Int) (py : Int)
  refine ⟨?_, ?_, ?_⟩
  · exact (glyphAt_eq_cellRune c i j hi hj).trans
      (braillePack_sum _ _ _ _ _ _ _ _)
  · intro hij
    have e1 : glyphAt (c.Set (px : Int) (py : Int)) i j =
        cellRune (c.Set (px : Int) (py : Int)) (2*(i:Int)) (4*(j:Int)) :=
      glyphAt_eq_cellRune _ i j (by rw [hd.1]; exact hi) (by rw [hd.2]; exact hj)
    rw [e1, glyphAt_eq_cellRune c i j hi hj]
    unfold cellRune
    simp only [hget]
    split_ifs
    all_goals try rfl
    all_goals exfalso
    all_goals omega
  · have e1 : glyphAt (c.Set (px : Int) (py : Int)) (px / 2) (py / 4) =
        cellRune (c.Set (px : Int) (py : Int))
          (2*((px / 2 : Nat):Int)) (4*((py / 4 : Nat):Int)) :=
      glyphAt_eq_cellRune _ _ _ (by rw [hd.1]; omega) (by rw [hd.2]; omega)
    rw [e1, glyphAt_eq_cellRune c (px / 2) (py / 4) (by omega) (by omega)]
    unfold cellRune
    simp only [hget]
    split_ifs
    all_goals try (exfalso; omega)
    all_goals
      first
      | (have e2 : px % 2 = 0 := by omega
         have e3 : py % 4 = 0 := by omega
         rw [e2, e3]
         exact (braillePack_or _ _ _ _ _ _ _ _).1)
      | (have e2 : px % 2 = 0 := by omega
         have e3 : py % 4 = 1 := by omega
         rw [e2, e3]
         exact (braillePack_or _ _ _ _ _ _ _ _).2.1)
      | (have e2 : px % 2 = 0 := by omega
         have e3 : py % 4 = 2 := by omega
         rw [e2, e3]
         exact (braillePack_or _ _ _ _ _ _ _ _).2.2.1)
      | (have e2 : px % 2 = 1 := by omega
         have e3 : py % 4 = 0 := by omega
         rw [e2, e3]
         exact (braillePack_or _ _ _ _ _ _ _ _).2.2.2.1)
      | (have e2 : px % 2 = 1 := by omega
         have e3 : py % 4 = 1 := by omega
         rw [e2, e3]
         exact (braillePack_or _ _ _ _ _ _ _ _).2.2.2.2.1)
      | (have e2 : px % 2 = 1 := by omega
         have e3 : py % 4 = 2 := by omega
         rw [e2, e3]
         exact (braillePack_or _ _ _ _ _ _ _ _).2.2.2.2.2.1)
      | (have e2 : px % 2 = 0 := by omega
         have e3 : py % 4 = 3 := by omega
         rw [e2, e3]
         exact (braillePack_or _ _ _ _ _ _ _ _).2.2.2.2.2.2.1)
      | (have e2 : px % 2 = 1 := by omega
         have e3 : py % 4 = 3 := by omega
         rw [e2, e3]
         exact (braillePack_or _ _ _ _ _ _ _ _).2.2.2.2.2.2.2)

/-- A small 4×8 sub-pixel canvas (2×2 character cells). -/
def sampleCanvas : BrailleCanvas := NewBrailleCanvas 4 8

theorem braille_glyph_packing_witness :
    (glyphAt sampleCanvas 1 1 =
      0x2800 + (cond (sampleCanvas.get (2*((1:Nat):Int)) (4*((1:Nat):Int))) 1 0)
        + (cond (sampleCanvas.get (2*((1:Nat):Int)) (4*((1:Nat):Int)+1)) 2 0)
        + (cond (sampleCanvas.get (2*((1:Nat):Int)) (4*((1:Nat):Int)+2)) 4 0)
        + (cond (sampleCanvas.get (2*((1:Nat):Int)+1) (4*((1:Nat):Int))) 8 0)
        + (cond (sampleCanvas.get (2*((1:Nat):Int)+1) (4*((1:Nat):Int)+1)) 16 0)
        + (cond (sampleCanvas.get (2*((1:Nat):Int)+1) (4*((1:Nat):Int)+2)) 32 0)
        + (cond (sampleCanvas.get (2*((1:Nat):Int)) (4*((1:Nat):Int)+3)) 64 0)
        + (cond (sampleCanvas.get (2*((1:Nat):Int)+1) (4*((1:Nat):Int)+3)) 128 0)) ∧
    ((1 ≠ 1 / 2 ∨ 1 ≠ 2 / 4) →
      glyphAt (sampleCanvas.Set ((1:Nat) : Int) ((2:Nat) : Int)) 1 1 =
        glyphAt sampleCanvas 1 1) ∧
    glyphAt (sampleCanvas.Set ((1:Nat) : Int) ((2:Nat) : Int)) (1 / 2) (2 / 4) =
      glyphAt sampleCanvas (1 / 2) (2 / 4) ||| dotBit (1 % 2) (2 % 4) :=
  braille_glyph_packing sampleCanvas 1 1 1 2 (by decide) (by decide) (by decide)
    (by decide) (by decide)
